import Mathlib

/-
Verification of the recursive segment trees in `src/Rust/staticrmq.rs` and
`src/Rust/point_add_range_sum.rs`.

The two Rust files contain the same pointer-based segment tree; `staticrmq.rs`
passes the identity `e` and the combiner `op` as closures stored in the
`SegmentTree` struct, while `point_add_range_sum.rs` obtains them from a
`Monoid` trait bound.  We embed the closure-parameterised variant as the core
development (namespace `Yosupo`) and the trait-based variant separately
(namespace `Yosupo.PointAdd`), and prove them extensionally equivalent.

Rust's `Option<Box<Node<T>>>` is embedded as the inductive `ONode`:
`ONode.none` is `None`, and `ONode.node v lo hi l r` is
`Some(Box(Node { value: v, range: lo..hi, left: l, right: r }))`.
A `panic!` (the `unwrap()` calls in `set_recursive`) is embedded by returning
`Option.none` from the Lean function.
-/

namespace Yosupo

/-- Embeds `Option<Box<Node<T>>>`: `none` is Rust `None`; `node v lo hi l r`
is `Some` of a `Node` with `value: v`, `range: lo..hi`, children `l`, `r`. -/
inductive ONode (α : Type) : Type where
  | none : ONode α
  | node (value : α) (lo hi : Nat) (left right : ONode α) : ONode α
deriving DecidableEq

/-- Embeds `n.as_ref().map_or(e, |n| n.value.clone())` — the value of an
optional node, with `e` for an absent node. -/
def ONode.value_or (e : α) : ONode α → α
  | ONode.none => e
  | ONode.node v _ _ _ _ => v

/-- Embeds `Node::new(range, e)` from `staticrmq.rs` (lines 16-37):
an empty range gives no node; a range of length `> 1` gets children built on
`start..mid` and `mid..end` with `mid = start + len / 2`; every created node's
value is the identity `e`. -/
def Node.new (e : α) (lo hi : Nat) : ONode α :=
  if hi ≤ lo then ONode.none
  else if 1 < hi - lo then
    ONode.node e lo hi (Node.new e lo (lo + (hi - lo) / 2))
      (Node.new e (lo + (hi - lo) / 2) hi)
  else ONode.node e lo hi ONode.none ONode.none
termination_by hi - lo
decreasing_by all_goals omega

/-- Embeds `Node::update_value` (`staticrmq.rs` lines 41-45): recompute the
value as `op` of the children's values, an absent child contributing `e`.
(In Rust this is a method on `Node`, never called on `None`; the `none` case
here is inert.) -/
def Node.update_value (e : α) (op : α → α → α) : ONode α → ONode α
  | ONode.none => ONode.none
  | ONode.node _ lo hi l r =>
      ONode.node (op (l.value_or e) (r.value_or e)) lo hi l r

/-- Embeds `SegmentTree::set_recursive` (`staticrmq.rs` lines 90-108).
The result `Option.none` embeds a `panic!`: in Rust the recursion does
`node.left.as_mut().unwrap()` / `node.right.as_mut().unwrap()`, which panics
when the chosen child is absent; recursing into an `ONode.none` child here
yields `Option.none`.  (The function is only ever called on a present node.) -/
def SegmentTree.set_recursive (e : α) (op : α → α → α) (index : Nat) (val : α) :
    ONode α → Option (ONode α)
  | ONode.none => Option.none
  | ONode.node v lo hi l r =>
    if hi - lo = 1 then some (ONode.node val lo hi l r)
    else if index < lo + (hi - lo) / 2 then
      (SegmentTree.set_recursive e op index val l).map fun l2 =>
        Node.update_value e op (ONode.node v lo hi l2 r)
    else
      (SegmentTree.set_recursive e op index val r).map fun r2 =>
        Node.update_value e op (ONode.node v lo hi l r2)

/-- Embeds `SegmentTree::get_recursive` (`staticrmq.rs` lines 118-140):
disjoint ranges give `e`, full containment gives the node's value, partial
overlap combines the two child results with `op` (left first).  The `none`
case embeds the `map_or(e(), ...)` wrapping at every use site of an optional
node. -/
def SegmentTree.get_recursive (e : α) (op : α → α → α) (qs qe : Nat) :
    ONode α → α
  | ONode.none => e
  | ONode.node v lo hi l r =>
    if qe ≤ lo ∨ qs ≥ hi then e
    else if qs ≤ lo ∧ qe ≥ hi then v
    else op (SegmentTree.get_recursive e op qs qe l)
            (SegmentTree.get_recursive e op qs qe r)

/-- Embeds the `SegmentTree` struct of `staticrmq.rs` (lines 50-60): the
optional root, the size, and the stored closures `e` and `op`. -/
structure SegmentTree (α : Type) where
  root : ONode α
  size : Nat
  e : α
  op : α → α → α

/-- Embeds `SegmentTree::new(size, e, op)` (`staticrmq.rs` lines 69-76). -/
def SegmentTree.new (size : Nat) (e : α) (op : α → α → α) : SegmentTree α :=
  { root := Node.new e 0 size, size := size, e := e, op := op }

/-- Embeds `SegmentTree::set` (`staticrmq.rs` lines 79-87): an index `>= size`
returns immediately; otherwise, if a root exists, `set_recursive` runs on it. -/
def SegmentTree.set (t : SegmentTree α) (index : Nat) (val : α) :
    Option (SegmentTree α) :=
  if t.size ≤ index then some t
  else
    match t.root with
    | ONode.none => some t
    | ONode.node v lo hi l r =>
      (SegmentTree.set_recursive t.e t.op index val (ONode.node v lo hi l r)).map
        fun n2 => { t with root := n2 }

/-- Embeds `SegmentTree::get` (`staticrmq.rs` lines 111-115):
`root.as_ref().map_or(e(), |root| get_recursive(root, ...))`, which coincides
with `get_recursive` applied to the optional root. -/
def SegmentTree.get (t : SegmentTree α) (qs qe : Nat) : α :=
  SegmentTree.get_recursive t.e t.op qs qe t.root

/-- Runs a sequence of `set(index, val)` calls left to right; `Option.none`
embeds a panic in one of the calls. -/
def SegmentTree.run_sets (t : SegmentTree α) :
    List (Nat × α) → Option (SegmentTree α)
  | [] => some t
  | (i, v) :: rest => (t.set i v).bind fun t2 => t2.run_sets rest

/-- Abstract model of one `set` call on the leaf assignment `f`: an in-range
index updates the function at that point, an out-of-range index changes
nothing. -/
def model_set (size : Nat) (f : Nat → α) (i : Nat) (v : α) : Nat → α :=
  if i < size then (fun j => if j = i then v else f j) else f

/-- Abstract model of a sequence of `set` calls on the leaf assignment `f`. -/
def model_run (size : Nat) (f : Nat → α) : List (Nat × α) → Nat → α
  | [] => f
  | (i, v) :: rest => model_run size (model_set size f i v) rest

/-- Left-to-right fold of `op` (starting from `e`) over the leaf values
`f lo, f (lo+1), ..., f (hi-1)`; `e` when the range is empty. -/
def sfold (op : α → α → α) (e : α) (f : Nat → α) (lo hi : Nat) : α :=
  (List.range' lo (hi - lo)).foldl (fun a i => op a (f i)) e

/-- The contract of the combiner: `op` associative with `e` a two-sided
identity (the documented requirement on `e`/`op`, resp. the `Monoid` trait). -/
structure MonoidLaws (e : α) (op : α → α → α) : Prop where
  assoc : ∀ a b c, op (op a b) c = op a (op b c)
  id_left : ∀ a, op e a = a
  id_right : ∀ a, op a e = a

/-- Structural well-formedness of a present node over `lo..hi`: the stored
range is exactly `lo..hi`; a range of length 1 is a leaf (no children); a
longer range has both children, split at `lo + (hi - lo) / 2`. -/
def SWf : ONode α → Nat → Nat → Prop
  | ONode.none, _, _ => False
  | ONode.node _ nlo nhi l r, lo, hi =>
    nlo = lo ∧ nhi = hi ∧
    (if hi - lo = 1 then l = ONode.none ∧ r = ONode.none
     else 1 < hi - lo ∧ SWf l lo (lo + (hi - lo) / 2) ∧
       SWf r (lo + (hi - lo) / 2) hi)

/-- Value correctness relative to the leaf assignment `f`: a leaf stores
`f` at its start index, and every non-leaf node stores `op` of its children's
values (an absent child contributing the identity `e`). -/
def Vals (e : α) (op : α → α → α) (f : Nat → α) : ONode α → Prop
  | ONode.none => True
  | ONode.node v lo _ l r =>
    Vals e op f l ∧ Vals e op f r ∧
    (match l, r with
     | ONode.none, ONode.none => v = f lo
     | _, _ => v = op (l.value_or e) (r.value_or e))

/-- Tree-level well-formedness: an empty tree has no root; otherwise the root
is structurally well-formed over `0..size`. -/
def SegmentTree.Wf (t : SegmentTree α) : Prop :=
  if t.size = 0 then t.root = ONode.none else SWf t.root 0 t.size

/-- The shape of an optional node: ranges and child links with values erased. -/
def ONode.shape : ONode α → ONode Unit
  | ONode.none => ONode.none
  | ONode.node _ lo hi l r => ONode.node () lo hi l.shape r.shape

/- ### Fold lemmas -/

theorem sfold_empty {op : α → α → α} {e : α} {f : Nat → α} {lo hi : Nat}
    (h : hi ≤ lo) : sfold op e f lo hi = e := by
  unfold sfold
  have h0 : hi - lo = 0 := by omega
  simp [h0]

theorem foldl_shift {op : α → α → α} {e : α} {f : Nat → α}
    (L : MonoidLaws e op) (l : List Nat) :
    ∀ a, List.foldl (fun x i => op x (f i)) a l
      = op a (List.foldl (fun x i => op x (f i)) e l) := by
  induction l with
  | nil => intro a; simp [L.id_right a]
  | cons x xs ih =>
    intro a
    simp only [List.foldl_cons]
    rw [ih (op a (f x)), ih (op e (f x)), L.id_left, L.assoc]

theorem sfold_split {op : α → α → α} {e : α} {f : Nat → α} {lo mid hi : Nat}
    (L : MonoidLaws e op) (h1 : lo ≤ mid) (h2 : mid ≤ hi) :
    sfold op e f lo hi = op (sfold op e f lo mid) (sfold op e f mid hi) := by
  unfold sfold
  have hsum : hi - lo = (hi - mid) + (mid - lo) := by omega
  have h3 : lo + (mid - lo) = mid := by omega
  rw [hsum, ← List.range'_append_1 lo (mid - lo) (hi - mid), h3,
    List.foldl_append, foldl_shift L]

theorem sfold_single {op : α → α → α} {e : α} {f : Nat → α} {lo : Nat}
    (L : MonoidLaws e op) : sfold op e f lo (lo + 1) = f lo := by
  unfold sfold
  have h1 : lo + 1 - lo = 1 := by omega
  simp [h1, L.id_left]

/- ### Construction lemmas -/

theorem new_none {e : α} {lo hi : Nat} (h : hi ≤ lo) :
    Node.new e lo hi = ONode.none := by
  rw [Node.new]
  simp [h]

theorem new_ne_none {e : α} {lo hi : Nat} (h : lo < hi) :
    Node.new e lo hi ≠ ONode.none := by
  rw [Node.new]
  have h2 : ¬ hi ≤ lo := by omega
  simp only [h2, if_false]
  split <;> simp

theorem new_value_or {e : α} (lo hi : Nat) :
    (Node.new e lo hi).value_or e = e := by
  rw [Node.new]
  by_cases h : hi ≤ lo
  · simp [h, ONode.value_or]
  · simp only [h, if_false]
    split <;> rfl

theorem new_swf {e : α} :
    ∀ fuel lo hi, hi - lo ≤ fuel → lo < hi → SWf (Node.new e lo hi) lo hi := by
  intro fuel
  induction fuel with
  | zero => intro lo hi h1 h2; omega
  | succ n ih =>
    intro lo hi h1 h2
    rw [Node.new]
    have h3 : ¬ hi ≤ lo := by omega
    simp only [h3, if_false]
    by_cases hlen : 1 < hi - lo
    · simp only [hlen, if_true]
      have hone : ¬ hi - lo = 1 := by omega
      simp only [SWf, hone, if_false]
      exact ⟨trivial, trivial, hlen, ih lo (lo + (hi - lo) / 2) (by omega) (by omega),
        ih (lo + (hi - lo) / 2) hi (by omega) (by omega)⟩
    · simp only [hlen, if_false]
      have hone : hi - lo = 1 := by omega
      simp only [SWf, hone, if_true]
      exact ⟨trivial, trivial, trivial, trivial⟩

theorem new_vals {e : α} {op : α → α → α} (hee : op e e = e) :
    ∀ fuel lo hi, hi - lo ≤ fuel → Vals e op (fun _ => e) (Node.new e lo hi) := by
  intro fuel
  induction fuel with
  | zero =>
    intro lo hi h1
    have h2 : hi ≤ lo := by omega
    rw [new_none h2]
    trivial
  | succ n ih =>
    intro lo hi h1
    by_cases h2 : hi ≤ lo
    · rw [new_none h2]; trivial
    · rw [Node.new]
      simp only [h2, if_false]
      by_cases hlen : 1 < hi - lo
      · simp only [hlen, if_true]
        have hL := ih lo (lo + (hi - lo) / 2) (by omega)
        have hR := ih (lo + (hi - lo) / 2) hi (by omega)
        have hLv := new_value_or (e := e) lo (lo + (hi - lo) / 2)
        have hRv := new_value_or (e := e) (lo + (hi - lo) / 2) hi
        rcases hLe : Node.new e lo (lo + (hi - lo) / 2) with _ | ⟨v1, a1, b1, l1, r1⟩
        · exact absurd hLe (new_ne_none (by omega))
        rcases hRe : Node.new e (lo + (hi - lo) / 2) hi with _ | ⟨v2, a2, b2, l2, r2⟩
        · exact absurd hRe (new_ne_none (by omega))
        rw [hLe] at hL hLv
        rw [hRe] at hR hRv
        simp only [ONode.value_or] at hLv hRv
        refine ⟨hL, hR, ?_⟩
        simp only [ONode.value_or, hLv, hRv, hee]
      · simp only [hlen, if_false]
        exact ⟨trivial, trivial, rfl⟩

/- ### Invariant preservation under point updates -/

theorem swf_ne_none {lo hi : Nat} {n : ONode α} (h : SWf n lo hi) :
    n ≠ ONode.none := by
  cases n with
  | none => exact absurd h (by simp [SWf])
  | node _ _ _ _ _ => simp

theorem vals_node_of_ne {e v : α} {op : α → α → α} {f : Nat → α}
    {lo hi : Nat} {l r : ONode α} (hl : l ≠ ONode.none)
    (hvl : Vals e op f l) (hvr : Vals e op f r)
    (hv : v = op (l.value_or e) (r.value_or e)) :
    Vals e op f (ONode.node v lo hi l r) := by
  cases l with
  | none => exact absurd rfl hl
  | node lv la lb ll lrr => cases r <;> exact ⟨hvl, hvr, hv⟩

theorem vals_congr {e : α} {op : α → α → α} {f g : Nat → α} :
    ∀ (n : ONode α) (lo hi : Nat), SWf n lo hi →
      (∀ j, lo ≤ j → j < hi → f j = g j) →
      Vals e op f n → Vals e op g n := by
  intro n
  induction n with
  | none => intro lo hi hs; exact absurd hs (by simp [SWf])
  | node v lo hi l r ihl ihr =>
    intro lo' hi' hs hfg hv
    simp only [SWf] at hs
    obtain ⟨h1, h2, hrest⟩ := hs
    subst h1
    subst h2
    by_cases hone : hi - lo = 1
    · simp only [hone, if_true] at hrest
      obtain ⟨rfl, rfl⟩ := hrest
      obtain ⟨-, -, hval⟩ := hv
      have hlo : f lo = g lo := hfg lo (Nat.le_refl lo) (by omega)
      exact ⟨trivial, trivial, by simpa [← hlo] using hval⟩
    · simp only [hone, if_false] at hrest
      obtain ⟨hlen, hswfl, hswfr⟩ := hrest
      have hvl := hv.1
      have hvr := hv.2.1
      refine vals_node_of_ne (swf_ne_none hswfl)
        (ihl lo (lo + (hi - lo) / 2) hswfl (fun j h1 h2 => hfg j h1 (by omega)) hvl)
        (ihr (lo + (hi - lo) / 2) hi hswfr (fun j h1 h2 => hfg j (by omega) h2) hvr)
        ?_
      cases l with
      | none => exact absurd rfl (swf_ne_none hswfl)
      | node lv la lb ll lrr =>
        cases r with
        | none => exact absurd rfl (swf_ne_none hswfr)
        | node rv ra rb rl rrr => exact hv.2.2

theorem set_recursive_spec (e : α) (op : α → α → α) (i : Nat) (v : α) :
    ∀ (n : ONode α) (lo hi : Nat), SWf n lo hi → lo ≤ i → i < hi →
      ∃ n2, SegmentTree.set_recursive e op i v n = some n2 ∧
        SWf n2 lo hi ∧ n2.shape = n.shape ∧
        ∀ f, Vals e op f n →
          Vals e op (fun j => if j = i then v else f j) n2 := by
  intro n
  induction n with
  | none => intro lo hi hs; exact absurd hs (by simp [SWf])
  | node w lo hi l r ihl ihr =>
    intro lo' hi' hs hlo hhi
    simp only [SWf] at hs
    obtain ⟨h1, h2, hrest⟩ := hs
    subst h1
    subst h2
    by_cases hone : hi - lo = 1
    · simp only [hone, if_true] at hrest
      obtain ⟨rfl, rfl⟩ := hrest
      refine ⟨ONode.node v lo hi ONode.none ONode.none, ?_, ?_, rfl, ?_⟩
      · simp [SegmentTree.set_recursive, hone]
      · simp [SWf, hone]
      · intro f hv
        have hi2 : lo = i := by omega
        exact ⟨trivial, trivial, by simp [hi2]⟩
    · simp only [hone, if_false] at hrest
      obtain ⟨hlen, hswfl, hswfr⟩ := hrest
      by_cases hdir : i < lo + (hi - lo) / 2
      · obtain ⟨l2, hl2, hswfl2, hshl2, hvl2⟩ :=
          ihl lo (lo + (hi - lo) / 2) hswfl hlo hdir
        refine ⟨ONode.node (op (l2.value_or e) (r.value_or e)) lo hi l2 r,
          ?_, ?_, ?_, ?_⟩
        · simp [SegmentTree.set_recursive, hone, hdir, hl2, Node.update_value]
        · simp only [SWf, hone, if_false]
          exact ⟨trivial, trivial, hlen, hswfl2, hswfr⟩
        · simp [ONode.shape, hshl2]
        · intro f hv
          refine vals_node_of_ne (swf_ne_none hswfl2) (hvl2 f hv.1) ?_ rfl
          exact vals_congr r (lo + (hi - lo) / 2) hi hswfr
            (fun j h1 h2 => by simp [show j ≠ i by omega]) hv.2.1
      · have hdir2 : lo + (hi - lo) / 2 ≤ i := by omega
        obtain ⟨r2, hr2, hswfr2, hshr2, hvr2⟩ :=
          ihr (lo + (hi - lo) / 2) hi hswfr hdir2 hhi
        refine ⟨ONode.node (op (l.value_or e) (r2.value_or e)) lo hi l r2,
          ?_, ?_, ?_, ?_⟩
        · simp [SegmentTree.set_recursive, hone, hdir, hr2, Node.update_value]
        · simp only [SWf, hone, if_false]
          exact ⟨trivial, trivial, hlen, hswfl, hswfr2⟩
        · simp [ONode.shape, hshr2]
        · intro f hv
          refine vals_node_of_ne (swf_ne_none hswfl) ?_ (hvr2 f hv.2.1) rfl
          exact vals_congr l lo (lo + (hi - lo) / 2) hswfl
            (fun j h1 h2 => by simp [show j ≠ i by omega]) hv.1

/- ### Query correctness -/

theorem value_sfold {e : α} {op : α → α → α} {f : Nat → α}
    (L : MonoidLaws e op) :
    ∀ (n : ONode α) (lo hi : Nat), SWf n lo hi → Vals e op f n →
      n.value_or e = sfold op e f lo hi := by
  intro n
  induction n with
  | none => intro lo hi hs; exact absurd hs (by simp [SWf])
  | node v lo hi l r ihl ihr =>
    intro lo' hi' hs hv
    simp only [SWf] at hs
    obtain ⟨h1, h2, hrest⟩ := hs
    subst h1
    subst h2
    by_cases hone : hi - lo = 1
    · simp only [hone, if_true] at hrest
      obtain ⟨rfl, rfl⟩ := hrest
      obtain ⟨-, -, hval⟩ := hv
      have h3 : hi = lo + 1 := by omega
      subst h3
      rw [sfold_single L]
      exact hval
    · simp only [hone, if_false] at hrest
      obtain ⟨hlen, hswfl, hswfr⟩ := hrest
      have hvl := hv.1
      have hvr := hv.2.1
      have hL := ihl lo (lo + (hi - lo) / 2) hswfl hvl
      have hR := ihr (lo + (hi - lo) / 2) hi hswfr hvr
      have hmatch : v = op (l.value_or e) (r.value_or e) := by
        cases l with
        | none => exact absurd rfl (swf_ne_none hswfl)
        | node lv la lb ll lrr =>
          cases r with
          | none => exact absurd rfl (swf_ne_none hswfr)
          | node rv ra rb rl rrr => exact hv.2.2
      show v = sfold op e f lo hi
      rw [hmatch, hL, hR,
        ← sfold_split L (by omega) (by omega)]

theorem get_recursive_correct {e : α} {op : α → α → α} {f : Nat → α}
    {qs qe : Nat} (L : MonoidLaws e op) :
    ∀ (n : ONode α) (lo hi : Nat), SWf n lo hi → Vals e op f n →
      SegmentTree.get_recursive e op qs qe n
        = sfold op e f (max qs lo) (min qe hi) := by
  intro n
  induction n with
  | none => intro lo hi hs; exact absurd hs (by simp [SWf])
  | node v lo hi l r ihl ihr =>
    intro lo' hi' hs hv
    have hval := value_sfold L (ONode.node v lo hi l r) lo' hi' hs hv
    simp only [SWf] at hs
    obtain ⟨h1, h2, hrest⟩ := hs
    subst h1
    subst h2
    simp only [SegmentTree.get_recursive]
    by_cases hdisj : qe ≤ lo ∨ qs ≥ hi
    · rw [if_pos hdisj, sfold_empty (by omega)]
    · rw [if_neg hdisj]
      by_cases hcont : qs ≤ lo ∧ qe ≥ hi
      · rw [if_pos hcont]
        have hmax : max qs lo = lo := by omega
        have hmin : min qe hi = hi := by omega
        rw [hmax, hmin]
        exact hval
      · rw [if_neg hcont]
        by_cases hone : hi - lo = 1
        · exact absurd (by omega) hcont
        · simp only [hone, if_false] at hrest
          obtain ⟨hlen, hswfl, hswfr⟩ := hrest
          have hL := ihl lo (lo + (hi - lo) / 2) hswfl hv.1
          have hR := ihr (lo + (hi - lo) / 2) hi hswfr hv.2.1
          rw [hL, hR]
          have hm1 : lo < lo + (hi - lo) / 2 := by omega
          have hm2 : lo + (hi - lo) / 2 < hi := by omega
          by_cases hq1 : qe ≤ lo + (hi - lo) / 2
          · have hre : sfold op e f (max qs (lo + (hi - lo) / 2))
                (min qe hi) = e := sfold_empty (by omega)
            rw [hre, L.id_right]
            have : min qe (lo + (hi - lo) / 2) = min qe hi := by omega
            rw [this]
          · by_cases hq2 : lo + (hi - lo) / 2 ≤ qs
            · have hle : sfold op e f (max qs lo)
                  (min qe (lo + (hi - lo) / 2)) = e := sfold_empty (by omega)
              rw [hle, L.id_left]
              have : max qs (lo + (hi - lo) / 2) = max qs lo := by omega
              rw [this]
            · have hminl : min qe (lo + (hi - lo) / 2) = lo + (hi - lo) / 2 :=
                by omega
              have hmaxr : max qs (lo + (hi - lo) / 2) = lo + (hi - lo) / 2 :=
                by omega
              rw [hminl, hmaxr,
                ← sfold_split L (by omega) (by omega)]

/- ### Tree-level invariants -/

theorem new_wf (size : Nat) (e : α) (op : α → α → α) :
    (SegmentTree.new size e op).Wf := by
  unfold SegmentTree.Wf SegmentTree.new
  by_cases h : size = 0
  · simp only [h, if_true]
    exact new_none (by omega)
  · simp only [h, if_false]
    exact new_swf size 0 size (by omega) (by omega)

theorem set_spec {t : SegmentTree α} (hw : t.Wf) (i : Nat) (v : α) :
    ∃ t2, t.set i v = some t2 ∧ t2.Wf ∧
      t2.size = t.size ∧ t2.e = t.e ∧ t2.op = t.op ∧
      t2.root.shape = t.root.shape ∧
      ∀ f, Vals t.e t.op f t.root →
        Vals t.e t.op (model_set t.size f i v) t2.root := by
  by_cases hio : t.size ≤ i
  · refine ⟨t, ?_, hw, rfl, rfl, rfl, rfl, ?_⟩
    · simp [SegmentTree.set, hio]
    · intro f hv
      have hms : model_set t.size f i v = f := by
        unfold model_set
        rw [if_neg (by omega)]
      rw [hms]
      exact hv
  · have hs0 : ¬ t.size = 0 := by omega
    have hswf : SWf t.root 0 t.size := by
      unfold SegmentTree.Wf at hw
      rwa [if_neg hs0] at hw
    obtain ⟨n2, hset, hswf2, hsh, hvals⟩ :=
      set_recursive_spec t.e t.op i v t.root 0 t.size hswf (by omega) (by omega)
    cases hroot : t.root with
    | none =>
      rw [hroot] at hswf
      exact absurd hswf (by simp [SWf])
    | node w lo hi l r =>
      rw [hroot] at hset hsh hvals
      refine ⟨{ t with root := n2 }, ?_, ?_, rfl, rfl, rfl, ?_, ?_⟩
      · simp [SegmentTree.set, hio, hroot, hset]
      · unfold SegmentTree.Wf
        simp only [hs0, if_false]
        exact hswf2
      · simp only [hroot]
        exact hsh
      · intro f hv
        have hms : model_set t.size f i v
            = fun j => if j = i then v else f j := by
          unfold model_set
          rw [if_pos (by omega)]
        rw [hms]
        exact hvals f hv

theorem run_sets_spec :
    ∀ (ops : List (Nat × α)) (t : SegmentTree α), t.Wf →
      ∃ t2, t.run_sets ops = some t2 ∧ t2.Wf ∧
        t2.size = t.size ∧ t2.e = t.e ∧ t2.op = t.op ∧
        t2.root.shape = t.root.shape ∧
        ∀ f, Vals t.e t.op f t.root →
          Vals t.e t.op (model_run t.size f ops) t2.root := by
  intro ops
  induction ops with
  | nil =>
    intro t hw
    exact ⟨t, rfl, hw, rfl, rfl, rfl, rfl, fun f hv => hv⟩
  | cons p rest ih =>
    obtain ⟨i, v⟩ := p
    intro t hw
    obtain ⟨t1, hset, hw1, hsz1, he1, hop1, hsh1, hv1⟩ := set_spec hw i v
    obtain ⟨t2, hrun, hw2, hsz2, he2, hop2, hsh2, hv2⟩ := ih t1 hw1
    refine ⟨t2, ?_, hw2, hsz2.trans hsz1, he2.trans he1, hop2.trans hop1,
      hsh2.trans hsh1, ?_⟩
    · simp [SegmentTree.run_sets, hset, hrun]
    · intro f hv
      show Vals t.e t.op (model_run t.size (model_set t.size f i v) rest) t2.root
      have hmain := hv2 (model_set t.size f i v)
      rw [he1, hop1, hsz1] at hmain
      exact hmain (hv1 f hv)

/-- Reachability package: running any sequence of `set` calls from a freshly
constructed tree succeeds and yields a well-formed tree whose shape is the
constructed shape and whose values realise the abstract leaf model. -/
theorem reach_spec {e : α} {op : α → α → α} (hee : op e e = e)
    (size : Nat) (ops : List (Nat × α)) :
    ∃ t, (SegmentTree.new size e op).run_sets ops = some t ∧ t.Wf ∧
      t.size = size ∧ t.e = e ∧ t.op = op ∧
      t.root.shape = (Node.new e 0 size : ONode α).shape ∧
      Vals e op (model_run size (fun _ => e) ops) t.root := by
  obtain ⟨t, hrun, hw, hsz, he, hop, hsh, hv⟩ :=
    run_sets_spec ops (SegmentTree.new size e op) (new_wf size e op)
  refine ⟨t, hrun, hw, hsz, he, hop, hsh, ?_⟩
  have := hv (fun _ => e) (new_vals hee size 0 size (by omega))
  simpa [SegmentTree.new] using this

/-- A well-formed tree whose values realise `f` answers `get l r` with the
left-to-right fold of `f` over `[l, min r size)`. -/
theorem wf_get {t : SegmentTree α} (L : MonoidLaws t.e t.op) (hw : t.Wf)
    {f : Nat → α} (hv : Vals t.e t.op f t.root) (l r : Nat) :
    t.get l r = sfold t.op t.e f l (min r t.size) := by
  unfold SegmentTree.get
  by_cases h0 : t.size = 0
  · have hroot : t.root = ONode.none := by
      unfold SegmentTree.Wf at hw
      rwa [if_pos h0] at hw
    rw [hroot]
    show t.e = _
    rw [sfold_empty (by omega)]
  · have hswf : SWf t.root 0 t.size := by
      unfold SegmentTree.Wf at hw
      rwa [if_neg h0] at hw
    rw [get_recursive_correct L t.root 0 t.size hswf hv]
    have : max l 0 = l := by omega
    rw [this]

/- ### Depth of the constructed tree -/

/-- Number of edges on the longest root-to-leaf path (0 for a leaf or for an
absent node). -/
def ONode.maxDepth : ONode α → Nat
  | ONode.none => 0
  | ONode.node _ _ _ ONode.none ONode.none => 0
  | ONode.node _ _ _ l r => 1 + max l.maxDepth r.maxDepth

/-- Number of edges on the shortest root-to-leaf path (0 for a leaf or for an
absent node). -/
def ONode.minDepth : ONode α → Nat
  | ONode.none => 0
  | ONode.node _ _ _ ONode.none ONode.none => 0
  | ONode.node _ _ _ l r => 1 + min l.minDepth r.minDepth

theorem new_depth {e : α} :
    ∀ fuel lo hi, hi - lo ≤ fuel → lo < hi →
      (Node.new e lo hi : ONode α).maxDepth = Nat.clog 2 (hi - lo) ∧
      (Node.new e lo hi : ONode α).minDepth = Nat.log 2 (hi - lo) := by
  intro fuel
  induction fuel with
  | zero => intro lo hi h1 h2; omega
  | succ n ih =>
    intro lo hi h1 h2
    rw [Node.new]
    have h3 : ¬ hi ≤ lo := by omega
    simp only [h3, if_false]
    by_cases hlen : 1 < hi - lo
    · simp only [hlen, if_true]
      obtain ⟨ihlmax, ihlmin⟩ := ih lo (lo + (hi - lo) / 2) (by omega) (by omega)
      obtain ⟨ihrmax, ihrmin⟩ := ih (lo + (hi - lo) / 2) hi (by omega) (by omega)
      have harg1 : lo + (hi - lo) / 2 - lo = (hi - lo) / 2 := by omega
      have harg2 : hi - (lo + (hi - lo) / 2) = (hi - lo + 1) / 2 := by omega
      rw [harg1] at ihlmax ihlmin
      rw [harg2] at ihrmax ihrmin
      have hclog : Nat.clog 2 (hi - lo)
          = Nat.clog 2 ((hi - lo + 1) / 2) + 1 := by
        have := Nat.clog_of_two_le (b := 2) (n := hi - lo) (by omega) (by omega)
        have harg : (hi - lo + 2 - 1) / 2 = (hi - lo + 1) / 2 := by omega
        rwa [harg] at this
      have hlog : Nat.log 2 (hi - lo) = Nat.log 2 ((hi - lo) / 2) + 1 := by
        have hdb := Nat.log_div_base 2 (hi - lo)
        have hpos : 0 < Nat.log 2 (hi - lo) :=
          Nat.log_pos (by omega) (by omega)
        omega
      have hmaxmono : Nat.clog 2 ((hi - lo) / 2)
          ≤ Nat.clog 2 ((hi - lo + 1) / 2) :=
        Nat.clog_mono_right 2 (by omega)
      have hminmono : Nat.log 2 ((hi - lo) / 2)
          ≤ Nat.log 2 ((hi - lo + 1) / 2) :=
        Nat.log_mono_right (by omega)
      rcases hL : (Node.new e lo (lo + (hi - lo) / 2) : ONode α) with
        _ | ⟨v1, a1, b1, l1, r1⟩
      · exact absurd hL (new_ne_none (by omega))
      rcases hR : (Node.new e (lo + (hi - lo) / 2) hi : ONode α) with
        _ | ⟨v2, a2, b2, l2, r2⟩
      · exact absurd hR (new_ne_none (by omega))
      rw [hL] at ihlmax ihlmin
      rw [hR] at ihrmax ihrmin
      constructor
      · show 1 + max (ONode.node v1 a1 b1 l1 r1).maxDepth
            (ONode.node v2 a2 b2 l2 r2).maxDepth = _
        rw [ihlmax, ihrmax]
        omega
      · show 1 + min (ONode.node v1 a1 b1 l1 r1).minDepth
            (ONode.node v2 a2 b2 l2 r2).minDepth = _
        rw [ihlmin, ihrmin]
        omega
    · simp only [hlen, if_false]
      have hone : hi - lo = 1 := by omega
      rw [hone]
      constructor
      · show (0 : Nat) = Nat.clog 2 1
        rw [Nat.clog_one_right]
      · show (0 : Nat) = Nat.log 2 1
        rw [Nat.log_one_right]

theorem clog2_le_log2_succ (n : Nat) : Nat.clog 2 n ≤ Nat.log 2 n + 1 := by
  have h1 : n < 2 ^ (Nat.log 2 n + 1) := Nat.lt_pow_succ_log_self (by omega) n
  exact (Nat.le_pow_iff_clog_le (by omega)).mp (by omega)

/- ### The trait-based variant of `point_add_range_sum.rs` -/

/-- Embeds the `Monoid` trait of `point_add_range_sum.rs` (lines 4-8): an
identity `id()` and a combiner `op`.  A trait implementation is a concrete
`Monoid α` value. -/
structure Monoid (α : Type) where
  id : α
  op : α → α → α

namespace PointAdd

/-- Embeds the `SegmentTree` struct of `point_add_range_sum.rs`
(lines 56-62): root and size only; `e`/`op` come from the `Monoid` bound. -/
structure SegmentTree (α : Type) where
  root : ONode α
  size : Nat

/-- Embeds `Node::new(range)` from `point_add_range_sum.rs` (lines 22-43). -/
def Node.new (M : Monoid α) (lo hi : Nat) : ONode α :=
  if hi ≤ lo then ONode.none
  else if 1 < hi - lo then
    ONode.node M.id lo hi (Node.new M lo (lo + (hi - lo) / 2))
      (Node.new M (lo + (hi - lo) / 2) hi)
  else ONode.node M.id lo hi ONode.none ONode.none
termination_by hi - lo
decreasing_by all_goals omega

/-- Embeds `Node::update_value` from `point_add_range_sum.rs` (lines 47-51). -/
def Node.update_value (M : Monoid α) : ONode α → ONode α
  | ONode.none => ONode.none
  | ONode.node _ lo hi l r =>
      ONode.node (M.op (l.value_or M.id) (r.value_or M.id)) lo hi l r

/-- Embeds `SegmentTree::set_recursive` from `point_add_range_sum.rs`
(lines 88-106); `Option.none` embeds the `unwrap()` panic. -/
def SegmentTree.set_recursive (M : Monoid α) (index : Nat) (val : α) :
    ONode α → Option (ONode α)
  | ONode.none => Option.none
  | ONode.node v lo hi l r =>
    if hi - lo = 1 then some (ONode.node val lo hi l r)
    else if index < lo + (hi - lo) / 2 then
      (SegmentTree.set_recursive M index val l).map fun l2 =>
        Node.update_value M (ONode.node v lo hi l2 r)
    else
      (SegmentTree.set_recursive M index val r).map fun r2 =>
        Node.update_value M (ONode.node v lo hi l r2)

/-- Embeds `SegmentTree::get_recursive` from `point_add_range_sum.rs`
(lines 116-138). -/
def SegmentTree.get_recursive (M : Monoid α) (qs qe : Nat) : ONode α → α
  | ONode.none => M.id
  | ONode.node v lo hi l r =>
    if qe ≤ lo ∨ qs ≥ hi then M.id
    else if qs ≤ lo ∧ qe ≥ hi then v
    else M.op (SegmentTree.get_recursive M qs qe l)
              (SegmentTree.get_recursive M qs qe r)

/-- Embeds `SegmentTree::new(size)` from `point_add_range_sum.rs`
(lines 69-74). -/
def SegmentTree.new (M : Monoid α) (size : Nat) : SegmentTree α :=
  { root := Node.new M 0 size, size := size }

/-- Embeds `SegmentTree::set` from `point_add_range_sum.rs` (lines 77-85). -/
def SegmentTree.set (M : Monoid α) (t : SegmentTree α) (index : Nat)
    (val : α) : Option (SegmentTree α) :=
  if t.size ≤ index then some t
  else
    match t.root with
    | ONode.none => some t
    | ONode.node v lo hi l r =>
      (SegmentTree.set_recursive M index val (ONode.node v lo hi l r)).map
        fun n2 => { t with root := n2 }

/-- Embeds `SegmentTree::get` from `point_add_range_sum.rs` (lines 109-113). -/
def SegmentTree.get (M : Monoid α) (t : SegmentTree α) (qs qe : Nat) : α :=
  SegmentTree.get_recursive M qs qe t.root

/-- Runs a sequence of `set` calls left to right on the trait-based tree. -/
def SegmentTree.run_sets (M : Monoid α) (t : SegmentTree α) :
    List (Nat × α) → Option (SegmentTree α)
  | [] => some t
  | (i, v) :: rest =>
      (SegmentTree.set M t i v).bind fun t2 => SegmentTree.run_sets M t2 rest

end PointAdd

/- ### Equivalence of the two variants -/

/-- Maps a trait-based tree state to the closure-based one with the same root
and size, carrying the monoid's identity and combiner. -/
def pa_to_rmq (M : Monoid α) (t : PointAdd.SegmentTree α) : SegmentTree α :=
  { root := t.root, size := t.size, e := M.id, op := M.op }

theorem pa_node_new_eq (M : Monoid α) :
    ∀ fuel lo hi, hi - lo ≤ fuel →
      PointAdd.Node.new M lo hi = Node.new M.id lo hi := by
  intro fuel
  induction fuel with
  | zero =>
    intro lo hi h1
    rw [PointAdd.Node.new, Node.new]
    have h2 : hi ≤ lo := by omega
    simp [h2]
  | succ n ih =>
    intro lo hi h1
    rw [PointAdd.Node.new, Node.new]
    by_cases h2 : hi ≤ lo
    · simp [h2]
    · simp only [h2, if_false]
      by_cases hlen : 1 < hi - lo
      · simp only [hlen, if_true]
        rw [ih lo (lo + (hi - lo) / 2) (by omega),
          ih (lo + (hi - lo) / 2) hi (by omega)]
      · simp [hlen]

theorem pa_update_value_eq (M : Monoid α) (n : ONode α) :
    PointAdd.Node.update_value M n = Node.update_value M.id M.op n := by
  cases n <;> rfl

theorem pa_set_recursive_eq (M : Monoid α) (i : Nat) (v : α) :
    ∀ n : ONode α, PointAdd.SegmentTree.set_recursive M i v n
      = SegmentTree.set_recursive M.id M.op i v n := by
  intro n
  induction n with
  | none => rfl
  | node w lo hi l r ihl ihr =>
    simp only [PointAdd.SegmentTree.set_recursive, SegmentTree.set_recursive,
      ihl, ihr, pa_update_value_eq]

theorem pa_get_recursive_eq (M : Monoid α) (qs qe : Nat) :
    ∀ n : ONode α, PointAdd.SegmentTree.get_recursive M qs qe n
      = SegmentTree.get_recursive M.id M.op qs qe n := by
  intro n
  induction n with
  | none => rfl
  | node w lo hi l r ihl ihr =>
    simp only [PointAdd.SegmentTree.get_recursive, SegmentTree.get_recursive,
      ihl, ihr]

theorem pa_set_eq (M : Monoid α) (t : PointAdd.SegmentTree α) (i : Nat)
    (v : α) :
    (PointAdd.SegmentTree.set M t i v).map (pa_to_rmq M)
      = (pa_to_rmq M t).set i v := by
  obtain ⟨root, size⟩ := t
  unfold PointAdd.SegmentTree.set SegmentTree.set pa_to_rmq
  by_cases h : size ≤ i
  · simp [h]
  · simp only [h, if_false]
    cases root with
    | none => simp
    | node w lo hi l r =>
      simp only [pa_set_recursive_eq, Option.map_map]
      rfl

theorem pa_get_eq (M : Monoid α) (t : PointAdd.SegmentTree α) (qs qe : Nat) :
    PointAdd.SegmentTree.get M t qs qe = (pa_to_rmq M t).get qs qe := by
  unfold PointAdd.SegmentTree.get SegmentTree.get pa_to_rmq
  exact pa_get_recursive_eq M qs qe t.root

theorem pa_run_sets_eq (M : Monoid α) :
    ∀ (ops : List (Nat × α)) (t : PointAdd.SegmentTree α),
      (PointAdd.SegmentTree.run_sets M t ops).map (pa_to_rmq M)
        = (pa_to_rmq M t).run_sets ops := by
  intro ops
  induction ops with
  | nil => intro t; rfl
  | cons p rest ih =>
    obtain ⟨i, v⟩ := p
    intro t
    have hset := pa_set_eq M t i v
    cases hs : PointAdd.SegmentTree.set M t i v with
    | none =>
      rw [hs] at hset
      simp only [PointAdd.SegmentTree.run_sets, SegmentTree.run_sets, hs,
        ← hset]
      rfl
    | some t1 =>
      rw [hs] at hset
      simp only [PointAdd.SegmentTree.run_sets, SegmentTree.run_sets, hs,
        ← hset]
      exact ih t1

/- ### Auxiliary facts used by the claim theorems -/

theorem model_run_append (size : Nat) (f : Nat → α) (l1 l2 : List (Nat × α)) :
    model_run size f (l1 ++ l2) = model_run size (model_run size f l1) l2 := by
  induction l1 generalizing f with
  | nil => rfl
  | cons p rest ih =>
    obtain ⟨i, v⟩ := p
    exact ih (model_set size f i v)

theorem natAddLaws : MonoidLaws (0 : Nat) (· + ·) :=
  ⟨Nat.add_assoc, Nat.zero_add, Nat.add_zero⟩

theorem listAppendLaws : MonoidLaws ([] : List Nat) (· ++ ·) :=
  ⟨List.append_assoc, List.nil_append, List.append_nil⟩

/- ### Claim theorems -/

/-- C1: for every lawful combiner (`op` associative, `e` two-sided identity),
every size and every sequence of `set` calls, `get(l..r)` runs without panic
and returns the left-to-right fold of `op` (starting from the identity) over
the leaf values at indices `l, ..., min r size - 1`, i.e. over
`[l, r) ∩ [0, size)`; the fold is taken left to right, so the result is
correct even for a non-commutative `op`. -/
theorem get_returns_left_fold {α : Type} {e : α} {op : α → α → α}
    (L : MonoidLaws e op) (size : Nat) (ops : List (Nat × α)) (l r : Nat) :
    ∃ t, (SegmentTree.new size e op).run_sets ops = some t ∧
      t.get l r
        = sfold op e (model_run size (fun _ => e) ops) l (min r size) := by
  obtain ⟨t, hrun, hw, hsz, he, hop, hsh, hv⟩ :=
    reach_spec (L.id_left e) size ops
  refine ⟨t, hrun, ?_⟩
  have hL : MonoidLaws t.e t.op := by rw [he, hop]; exact L
  have hv2 : Vals t.e t.op (model_run size (fun _ => e) ops) t.root := by
    rw [he, hop]; exact hv
  have hg := wf_get hL hw hv2 l r
  rw [he, hop, hsz] at hg
  exact hg

theorem get_returns_left_fold_witness :
    MonoidLaws ([] : List Nat) (· ++ ·) ∧
    ∃ t, (SegmentTree.new 3 ([] : List Nat) (· ++ ·)).run_sets
        [(0, [1]), (1, [2]), (2, [3])] = some t ∧
      t.get 0 3 = sfold (· ++ ·) ([] : List Nat)
        (model_run 3 (fun _ => []) [(0, [1]), (1, [2]), (2, [3])]) 0
        (min 3 3) :=
  ⟨listAppendLaws,
    get_returns_left_fold listAppendLaws 3 [(0, [1]), (1, [2]), (2, [3])] 0 3⟩

/-- C2: after construction and after every sequence of `set` calls, the tree
is well formed (`Wf`: stored ranges are the construction ranges) and `Vals`
holds: every non-leaf node's value is `op` of its children's values (an
absent child contributing the identity), and every leaf's value is the last
value explicitly set at its index (`model_run`), the identity if never set. -/
theorem node_value_invariant {α : Type} {e : α} {op : α → α → α}
    (L : MonoidLaws e op) (size : Nat) (ops : List (Nat × α)) :
    ∃ t, (SegmentTree.new size e op).run_sets ops = some t ∧ t.Wf ∧
      Vals e op (model_run size (fun _ => e) ops) t.root := by
  obtain ⟨t, hrun, hw, hsz, he, hop, hsh, hv⟩ :=
    reach_spec (L.id_left e) size ops
  exact ⟨t, hrun, hw, hv⟩

theorem node_value_invariant_witness :
    MonoidLaws (0 : Nat) (· + ·) ∧
    ∃ t, (SegmentTree.new 4 (0 : Nat) (· + ·)).run_sets [(1, 5), (3, 2)]
        = some t ∧ t.Wf ∧
      Vals 0 (· + ·) (model_run 4 (fun _ => 0) [(1, 5), (3, 2)]) t.root :=
  ⟨natAddLaws, node_value_invariant natAddLaws 4 [(1, 5), (3, 2)]⟩

/-- C3: for every lawful combiner, every in-range index `i` and every prior
sequence of operations, immediately after `set(i, v)` the query
`get(i..i+1)` returns exactly `v`. -/
theorem point_readback {α : Type} {e : α} {op : α → α → α}
    (L : MonoidLaws e op) (size : Nat) (ops : List (Nat × α)) (i : Nat)
    (v : α) (h : i < size) :
    ∃ t, (SegmentTree.new size e op).run_sets (ops ++ [(i, v)]) = some t ∧
      t.get i (i + 1) = v := by
  obtain ⟨t, hrun, hw, hsz, he, hop, hsh, hv⟩ :=
    reach_spec (L.id_left e) size (ops ++ [(i, v)])
  refine ⟨t, hrun, ?_⟩
  have hL : MonoidLaws t.e t.op := by rw [he, hop]; exact L
  have hv2 : Vals t.e t.op
      (model_run size (fun _ => e) (ops ++ [(i, v)])) t.root := by
    rw [he, hop]; exact hv
  have hg := wf_get hL hw hv2 i (i + 1)
  rw [he, hop, hsz] at hg
  have hmin : min (i + 1) size = i + 1 := by omega
  rw [hmin, sfold_single L] at hg
  rw [hg, model_run_append]
  show model_set size (model_run size (fun _ => e) ops) i v i = v
  unfold model_set
  rw [if_pos h]
  simp

theorem point_readback_witness :
    MonoidLaws (0 : Nat) (· + ·) ∧ 2 < 4 ∧
    ∃ t, (SegmentTree.new 4 (0 : Nat) (· + ·)).run_sets
        ([(0, 3)] ++ [(2, 9)]) = some t ∧
      t.get 2 (2 + 1) = 9 :=
  ⟨natAddLaws, by decide, point_readback natAddLaws 4 [(0, 3)] 2 9 (by decide)⟩

/-- C4: for every index `>= size` (hence for every index when `size = 0`),
`set(index, v)` returns the state unchanged, so every subsequent `get` over
any range returns the same value as before the call. -/
theorem oob_set_noop {α : Type} (t : SegmentTree α) (i : Nat) (v : α)
    (h : t.size ≤ i) :
    t.set i v = some t ∧
      ∀ l r, (t.set i v).map (fun t2 => t2.get l r) = some (t.get l r) := by
  have h1 : t.set i v = some t := by simp [SegmentTree.set, h]
  exact ⟨h1, fun l r => by rw [h1]; rfl⟩

theorem oob_set_noop_witness :
    (SegmentTree.new 3 (0 : Nat) (· + ·)).size ≤ 5 ∧
    ((SegmentTree.new 3 (0 : Nat) (· + ·)).set 5 9
        = some (SegmentTree.new 3 (0 : Nat) (· + ·)) ∧
      ∀ l r, ((SegmentTree.new 3 (0 : Nat) (· + ·)).set 5 9).map
          (fun t2 => t2.get l r)
        = some ((SegmentTree.new 3 (0 : Nat) (· + ·)).get l r)) :=
  ⟨by decide, oob_set_noop (SegmentTree.new 3 (0 : Nat) (· + ·)) 5 9 (by decide)⟩

/-- C5: for every lawful combiner and every reachable tree state, `get` over
an empty or reversed range (`r <= l`, in particular `get(k..k)`) returns the
identity; and when `size = 0`, `get` over any range returns the identity and
`set` is always a no-op. -/
theorem empty_range_returns_identity {α : Type} {e : α} {op : α → α → α}
    (L : MonoidLaws e op) (size : Nat) (ops : List (Nat × α)) :
    ∃ t, (SegmentTree.new size e op).run_sets ops = some t ∧
      (∀ l r, r ≤ l → t.get l r = e) ∧
      (size = 0 →
        (∀ l r, t.get l r = e) ∧ (∀ i v, t.set i v = some t)) := by
  obtain ⟨t, hrun, hw, hsz, he, hop, hsh, hv⟩ :=
    reach_spec (L.id_left e) size ops
  have hL : MonoidLaws t.e t.op := by rw [he, hop]; exact L
  have hv2 : Vals t.e t.op (model_run size (fun _ => e) ops) t.root := by
    rw [he, hop]; exact hv
  refine ⟨t, hrun, ?_, ?_⟩
  · intro l r hlr
    have hg := wf_get hL hw hv2 l r
    rw [he, hop, hsz] at hg
    rw [hg, sfold_empty (by omega)]
  · intro h0
    constructor
    · intro l r
      have hg := wf_get hL hw hv2 l r
      rw [he, hop, hsz] at hg
      rw [hg, sfold_empty (by omega)]
    · intro i v
      simp [SegmentTree.set, show t.size ≤ i by omega]

theorem empty_range_returns_identity_witness :
    MonoidLaws (0 : Nat) (· + ·) ∧
    ∃ t, (SegmentTree.new 0 (0 : Nat) (· + ·)).run_sets [(0, 7)] = some t ∧
      (∀ l r, r ≤ l → t.get l r = 0) ∧
      ((0 : Nat) = 0 →
        (∀ l r, t.get l r = 0) ∧ (∀ i v, t.set i v = some t)) :=
  ⟨natAddLaws, empty_range_returns_identity natAddLaws 0 [(0, 7)]⟩

/-- C6: for every in-range `i`, `set(i, v)` changes only the leaf at `i` and
its ancestors' values: for every other in-range index `j ≠ i`, `get(j..j+1)`
is unchanged, and the tree's structure (shape: ranges and child links) and
size are untouched. -/
theorem set_frame_property {α : Type} {e : α} {op : α → α → α}
    (L : MonoidLaws e op) (size : Nat) (ops : List (Nat × α)) (i j : Nat)
    (v : α) (hij : i < size) (hjs : j < size) (hne : j ≠ i) :
    ∃ t t2, (SegmentTree.new size e op).run_sets ops = some t ∧
      t.set i v = some t2 ∧
      t2.get j (j + 1) = t.get j (j + 1) ∧
      t2.root.shape = t.root.shape ∧ t2.size = t.size := by
  obtain ⟨t, hrun, hw, hsz, he, hop, hsh, hv⟩ :=
    reach_spec (L.id_left e) size ops
  have hL : MonoidLaws t.e t.op := by rw [he, hop]; exact L
  have hv2 : Vals t.e t.op (model_run size (fun _ => e) ops) t.root := by
    rw [he, hop]; exact hv
  obtain ⟨t2, hset, hw2, hsz2, he2, hop2, hsh2, hv3⟩ := set_spec hw i v
  refine ⟨t, t2, hrun, hset, ?_, hsh2, hsz2⟩
  have hL2 : MonoidLaws t2.e t2.op := by rw [he2, hop2]; exact hL
  have hvt2 : Vals t2.e t2.op
      (model_set t.size (model_run size (fun _ => e) ops) i v) t2.root := by
    rw [he2, hop2]
    exact hv3 (model_run size (fun _ => e) ops) hv2
  have hg2 := wf_get hL2 hw2 hvt2 j (j + 1)
  have hg1 := wf_get hL hw hv2 j (j + 1)
  rw [he, hop, hsz] at hg1
  rw [he2, hop2, he, hop, hsz2, hsz] at hg2
  have hmin : min (j + 1) size = j + 1 := by omega
  rw [hmin, sfold_single L] at hg1 hg2
  rw [hg1, hg2]
  unfold model_set
  rw [if_pos (by omega)]
  simp [hne]

theorem set_frame_property_witness :
    MonoidLaws (0 : Nat) (· + ·) ∧ 2 < 4 ∧ 1 < 4 ∧ 1 ≠ 2 ∧
    ∃ t t2, (SegmentTree.new 4 (0 : Nat) (· + ·)).run_sets
        [(1, 5), (2, 6)] = some t ∧
      t.set 2 10 = some t2 ∧
      t2.get 1 (1 + 1) = t.get 1 (1 + 1) ∧
      t2.root.shape = t.root.shape ∧ t2.size = t.size :=
  ⟨natAddLaws, by decide, by decide, by decide,
    set_frame_property natAddLaws 4 [(1, 5), (2, 6)] 2 1 10 (by decide)
      (by decide) (by decide)⟩

/-- C7: the core operations are total for every combiner (no lawfulness
needed): `new` terminates, `get` is a total function for every query range
(including empty, reversed and out-of-bounds ranges), and every sequence of
`set` calls — any indices, in range or not — runs to completion without
reaching a failing `unwrap` (no `Option.none`, which embeds the panic). -/
theorem operations_total {α : Type} (e : α) (op : α → α → α) (size : Nat)
    (ops : List (Nat × α)) :
    ∃ t, (SegmentTree.new size e op).run_sets ops = some t ∧
      ∀ i v, ∃ t2, t.set i v = some t2 := by
  obtain ⟨t, hrun, hw, -⟩ :=
    run_sets_spec ops (SegmentTree.new size e op) (new_wf size e op)
  refine ⟨t, hrun, fun i v => ?_⟩
  obtain ⟨t2, hset, -⟩ := set_spec hw i v
  exact ⟨t2, hset⟩

/-- C8: the trait-based segment tree of `point_add_range_sum.rs` and the
closure-parameterised one of `staticrmq.rs` are extensionally equivalent:
with the same identity and combiner and the same sequence of `set` calls,
every `get` returns the same value (and the run outcomes, including possible
panics, coincide). -/
theorem variants_equivalent {α : Type} (M : Monoid α) (size : Nat)
    (ops : List (Nat × α)) (l r : Nat) :
    (PointAdd.SegmentTree.run_sets M (PointAdd.SegmentTree.new M size)
        ops).map (fun t => PointAdd.SegmentTree.get M t l r)
      = ((SegmentTree.new size M.id M.op).run_sets ops).map
          (fun t => t.get l r) := by
  have hnew : pa_to_rmq M (PointAdd.SegmentTree.new M size)
      = SegmentTree.new size M.id M.op := by
    unfold pa_to_rmq PointAdd.SegmentTree.new SegmentTree.new
    rw [pa_node_new_eq M size 0 size (by omega)]
  have hrun := pa_run_sets_eq M ops (PointAdd.SegmentTree.new M size)
  rw [hnew] at hrun
  rw [← hrun]
  cases PointAdd.SegmentTree.run_sets M (PointAdd.SegmentTree.new M size)
      ops with
  | none => rfl
  | some t1 =>
    show some (PointAdd.SegmentTree.get M t1 l r)
      = some ((pa_to_rmq M t1).get l r)
    rw [pa_get_eq]

/-- C9: for every size `>= 1`, the constructed tree is height-balanced with
depth exactly `ceil(log2 size)`: the longest root-to-leaf path has
`Nat.clog 2 size` edges, the shortest has `Nat.log 2 size`, and they differ
by at most one level. -/
theorem construction_depth {α : Type} (e : α) (op : α → α → α) (size : Nat)
    (h : 1 ≤ size) :
    (SegmentTree.new size e op).root.maxDepth = Nat.clog 2 size ∧
    (SegmentTree.new size e op).root.minDepth = Nat.log 2 size ∧
    (SegmentTree.new size e op).root.maxDepth
      ≤ (SegmentTree.new size e op).root.minDepth + 1 := by
  have hd := new_depth (e := e) size 0 size (by omega) (by omega)
  have hsub : size - 0 = size := by omega
  rw [hsub] at hd
  obtain ⟨h1, h2⟩ := hd
  refine ⟨h1, h2, ?_⟩
  show (Node.new e 0 size : ONode α).maxDepth
    ≤ (Node.new e 0 size : ONode α).minDepth + 1
  rw [h1, h2]
  exact clog2_le_log2_succ size

theorem construction_depth_witness :
    1 ≤ 5 ∧
    ((SegmentTree.new 5 (0 : Nat) (· + ·)).root.maxDepth = Nat.clog 2 5 ∧
     (SegmentTree.new 5 (0 : Nat) (· + ·)).root.minDepth = Nat.log 2 5 ∧
     (SegmentTree.new 5 (0 : Nat) (· + ·)).root.maxDepth
       ≤ (SegmentTree.new 5 (0 : Nat) (· + ·)).root.minDepth + 1) :=
  ⟨by decide, construction_depth 0 (· + ·) 5 (by decide)⟩

/-- C10: the structure is static after construction: after every sequence of
`set` calls the shape (every node with its covered range and child links) is
exactly the constructed shape — no node created or destroyed, no range
changed (`get` is a pure function and cannot mutate) — the tree stays well
formed (every covered range non-empty, children present iff the range spans
more than one index, leaves exactly the length-1 ranges), and the root is
absent iff `size = 0`. -/
theorem structure_static {α : Type} (e : α) (op : α → α → α) (size : Nat)
    (ops : List (Nat × α)) :
    ∃ t, (SegmentTree.new size e op).run_sets ops = some t ∧
      t.root.shape = (SegmentTree.new size e op).root.shape ∧
      t.size = size ∧
      (t.root = ONode.none ↔ size = 0) ∧
      t.Wf := by
  obtain ⟨t, hrun, hw, hsz, he, hop, hsh, -⟩ :=
    run_sets_spec ops (SegmentTree.new size e op) (new_wf size e op)
  have hsz0 : t.size = size := hsz
  refine ⟨t, hrun, hsh, hsz0, ?_, hw⟩
  constructor
  · intro hnone
    by_contra h0
    have hswf : SWf t.root 0 t.size := by
      unfold SegmentTree.Wf at hw
      rwa [if_neg (by omega)] at hw
    exact absurd hnone (swf_ne_none hswf)
  · intro h0
    unfold SegmentTree.Wf at hw
    rwa [if_pos (by omega)] at hw

end Yosupo
